import Mathlib

/-!
Verification of pdsl_core/src/byte_utils.rs.

Byte buffers (Rust slices of u8) are embedded as List Nat together with the
invariant that every element is below 256.  Rust u8 arithmetic is modelled
with explicit `% 256` and overflow tests `256 ≤ _`.  The Rust loops run over
the buffer in reverse (least-significant byte last), so the loop bodies are
embedded as structural recursions over the reversed list; the public
functions reverse before and after.  Panicking preconditions (assert!) are
modelled by returning Option: none is a PreconditionViolation.
-/

namespace ByteUtils

/-- Loop body of bytes_add_byte, acting on the reversed buffer
(least-significant byte first).  Mirrors the Rust loop:
carry starts as rhs; on carry == 0 return false early (rest unchanged);
otherwise overflowing_add the carry into the byte and continue with the
overflow bit; after the loop report whether carry is nonzero. -/
def addByteLoop : List Nat → Nat → List Nat × Bool
  | [], carry => ([], if carry = 0 then false else true)
  | b :: rest, carry =>
    if carry = 0 then (b :: rest, false)
    else
      let s := b + carry
      let res := s % 256
      let ovfl : Nat := if 256 ≤ s then 1 else 0
      let next := addByteLoop rest ovfl
      (res :: next.1, next.2)

/-- Rust bytes_add_byte: asserts lhs.len() >= 1, then adds the byte rhs into
the buffer from the last byte toward the first, returning whether the final
carry overflowed out of the buffer.  The assert is modelled as Option. -/
def bytes_add_byte (lhs : List Nat) (rhs : Nat) : Option (List Nat × Bool) :=
  if 1 ≤ lhs.length then
    let r := addByteLoop lhs.reverse rhs
    some (r.1.reverse, r.2)
  else none

/-- Rust invert_bytes: flips all bytes in place.  For a u8 byte b < 256 the
bitwise complement !b equals 255 - b. -/
def invert_bytes (bytes : List Nat) : List Nat :=
  bytes.map (fun byte => 255 - byte)

/-- Rust negate_bytes: invert_bytes then bytes_add_byte with 0x01, two's
complement negation in place.  The returned overflow bool is discarded. -/
def negate_bytes (bytes : List Nat) : Option (List Nat) :=
  (bytes_add_byte (invert_bytes bytes) 0x01).map Prod.fst

/-- Rust slice4_as_array4 (macro impl_slice_as_array with n = 4): if the
slice length is not 4 return None, otherwise view the same elements as a
fixed-size array (the unsafe transmute reuses the storage, so the contents
are exactly those of the slice). -/
def slice4_as_array4 {α : Type} (slice : List α) : Option (List α) :=
  if slice.length ≠ 4 then none
  else some slice

/-- Rust slice8_as_array8 (macro impl_slice_as_array with n = 8). -/
def slice8_as_array8 {α : Type} (slice : List α) : Option (List α) :=
  if slice.length ≠ 8 then none
  else some slice

/-- Loop body of bytes_add_bytes on the reversed buffers: at each position
res1/carry1 is lhs byte plus carry, res2/carry2 is res1 plus rhs byte; the
stored byte is res2 and the next carry is carry1 || carry2. -/
def addBytesLoop : List Nat → List Nat → Nat → List Nat
  | [], _, _ => []
  | _ :: _, [], _ => []
  | l :: ls, r :: rs, carry =>
    let s1 := l + carry
    let res1 := s1 % 256
    let s2 := res1 + r
    let res2 := s2 % 256
    let carryOut : Nat := if 256 ≤ s1 ∨ 256 ≤ s2 then 1 else 0
    res2 :: addBytesLoop ls rs carryOut

/-- Tracks the debug_assert!(!(carry1 && carry2)) of the bytes_add_bytes
loop: true iff at no step do both overflowing additions overflow.  The
carry is threaded exactly as in addBytesLoop. -/
def addBytesAssertOk : List Nat → List Nat → Nat → Bool
  | [], _, _ => true
  | _ :: _, [], _ => true
  | l :: ls, r :: rs, carry =>
    let s1 := l + carry
    let res1 := s1 % 256
    let s2 := res1 + r
    let carryOut : Nat := if 256 ≤ s1 ∨ 256 ≤ s2 then 1 else 0
    (!(decide (256 ≤ s1) && decide (256 ≤ s2))) && addBytesAssertOk ls rs carryOut

/-- Rust bytes_add_bytes: asserts equal lengths (modelled as Option), then
adds rhs into lhs from the last byte toward the first with carry. -/
def bytes_add_bytes (lhs rhs : List Nat) : Option (List Nat) :=
  if lhs.length = rhs.length then
    some (addBytesLoop lhs.reverse rhs.reverse 0).reverse
  else none

/-- Rust bytes4_to_u32 (macro primitives_impl for u32): big-endian decode,
res |= bytes[i] << (32 - (i+1)*8) for i in 0..4. -/
def bytes4_to_u32 (bytes : List Nat) : Nat :=
  (List.range 4).foldl (fun res i => res ||| ((bytes.getD i 0) <<< (32 - (i + 1) * 8))) 0

/-- Rust u32_to_bytes4: big-endian encode, buf[i] = (val >> (32 - (i+1)*8)) & 0xFF. -/
def u32_to_bytes4 (val : Nat) : List Nat :=
  (List.range 4).map (fun i => (val >>> (32 - (i + 1) * 8)) &&& 0xFF)

/-- Rust bytes8_to_u64 (macro primitives_impl for u64). -/
def bytes8_to_u64 (bytes : List Nat) : Nat :=
  (List.range 8).foldl (fun res i => res ||| ((bytes.getD i 0) <<< (64 - (i + 1) * 8))) 0

/-- Rust u64_to_bytes8. -/
def u64_to_bytes8 (val : Nat) : List Nat :=
  (List.range 8).map (fun i => (val >>> (64 - (i + 1) * 8)) &&& 0xFF)

/-- Value of a little-endian byte list (index 0 is least significant). -/
def valLE : List Nat → Nat
  | [] => 0
  | b :: rest => b + 256 * valLE rest

/-- Value of a buffer read as an unsigned big-endian integer (index 0 is
the most significant byte), as the spec interprets buffers. -/
def beVal (l : List Nat) : Nat :=
  l.foldl (fun acc b => 256 * acc + b) 0

theorem valLE_append (xs ys : List Nat) :
    valLE (xs ++ ys) = valLE xs + 256 ^ xs.length * valLE ys := by
  induction xs with
  | nil => simp [valLE]
  | cons b t ih =>
    rw [List.cons_append]
    show b + 256 * valLE (t ++ ys) = _
    rw [ih]
    simp only [valLE, List.length_cons, pow_succ]
    ring

theorem beVal_foldl_acc (l : List Nat) (a : Nat) :
    l.foldl (fun acc b => 256 * acc + b) a = a * 256 ^ l.length + beVal l := by
  induction l generalizing a with
  | nil => simp [beVal]
  | cons b t ih =>
    simp only [List.foldl_cons, List.length_cons]
    rw [ih (256 * a + b)]
    have hb : beVal (b :: t) = (256 * 0 + b) * 256 ^ t.length + beVal t := by
      simp only [beVal, List.foldl_cons]
      exact ih (256 * 0 + b)
    rw [hb]
    ring

theorem beVal_cons (b : Nat) (t : List Nat) :
    beVal (b :: t) = b * 256 ^ t.length + beVal t := by
  have h : beVal (b :: t) = (256 * 0 + b) * 256 ^ t.length + beVal t := by
    simp only [beVal, List.foldl_cons]
    exact beVal_foldl_acc t (256 * 0 + b)
  rw [h]
  ring

theorem beVal_eq_valLE_reverse (l : List Nat) : beVal l = valLE l.reverse := by
  induction l with
  | nil => rfl
  | cons b t ih =>
    rw [beVal_cons, List.reverse_cons, valLE_append, ← ih, List.length_reverse]
    simp only [valLE]
    ring

theorem valLE_lt (l : List Nat) (h : ∀ b ∈ l, b < 256) :
    valLE l < 256 ^ l.length := by
  induction l with
  | nil => simp [valLE]
  | cons b t ih =>
    have hb : b < 256 := h b (by simp)
    have ht : valLE t < 256 ^ t.length := ih (fun x hx => h x (by simp [hx]))
    simp only [valLE, List.length_cons, pow_succ]
    calc b + 256 * valLE t < 256 + 256 * valLE t := by omega
      _ = 256 * (valLE t + 1) := by ring
      _ ≤ 256 * 256 ^ t.length := by
          exact Nat.mul_le_mul_left 256 (by omega)
      _ = 256 ^ t.length * 256 := by ring

theorem valLE_inj (l1 l2 : List Nat) (h1 : ∀ b ∈ l1, b < 256)
    (h2 : ∀ b ∈ l2, b < 256) (hlen : l1.length = l2.length)
    (hv : valLE l1 = valLE l2) : l1 = l2 := by
  induction l1 generalizing l2 with
  | nil =>
    cases l2 with
    | nil => rfl
    | cons b t => simp at hlen
  | cons a t ih =>
    cases l2 with
    | nil => simp at hlen
    | cons b u =>
      have ha : a < 256 := h1 a (by simp)
      have hb : b < 256 := h2 b (by simp)
      simp only [valLE] at hv
      have hab : a = b := by omega
      have htu : valLE t = valLE u := by omega
      have := ih u (fun x hx => h1 x (List.mem_cons_of_mem a hx))
        (fun x hx => h2 x (List.mem_cons_of_mem b hx)) (by simpa using hlen) htu
      rw [hab, this]

theorem mod_carry_split (t M n : Nat) :
    (t + 256 * M) % 256 ^ (n + 1) = t % 256 + 256 * ((M + t / 256) % 256 ^ n) := by
  have hp : 0 < 256 ^ n := pow_pos (by norm_num) n
  have hpow : 256 ^ (n + 1) = 256 * 256 ^ n := by ring
  have hd1 := Nat.div_add_mod (M + t / 256) (256 ^ n)
  have hmlt : (M + t / 256) % 256 ^ n < 256 ^ n := Nat.mod_lt _ hp
  have h1 : t + 256 * M =
      (t % 256 + 256 * ((M + t / 256) % 256 ^ n)) +
        256 * (256 ^ n * ((M + t / 256) / 256 ^ n)) := by omega
  rw [h1, hpow, ← mul_assoc, Nat.add_mul_mod_self_left]
  exact Nat.mod_eq_of_lt (by omega)

theorem addBytesLoop_cons (l r c : Nat) (ls rs : List Nat)
    (hl : l < 256) (hr : r < 256) (hc : c ≤ 1) :
    addBytesLoop (l :: ls) (r :: rs) c =
      (l + r + c) % 256 :: addBytesLoop ls rs ((l + r + c) / 256) := by
  show ((l + c) % 256 + r) % 256 :: addBytesLoop ls rs
      (if 256 ≤ l + c ∨ 256 ≤ (l + c) % 256 + r then 1 else 0) = _
  have e1 : ((l + c) % 256 + r) % 256 = (l + r + c) % 256 := by omega
  have e2 : (if 256 ≤ l + c ∨ 256 ≤ (l + c) % 256 + r then 1 else 0) =
      (l + r + c) / 256 := by
    split <;> omega
  rw [e1, e2]

theorem valLE_addBytesLoop (ls : List Nat) : ∀ (rs : List Nat) (c : Nat),
    ls.length = rs.length → (∀ b ∈ ls, b < 256) → (∀ b ∈ rs, b < 256) → c ≤ 1 →
    valLE (addBytesLoop ls rs c) = (valLE ls + valLE rs + c) % 256 ^ ls.length := by
  induction ls with
  | nil =>
    intro rs c hlen hl hr hc
    cases rs with
    | nil => simp [addBytesLoop, valLE, Nat.mod_one]
    | cons r t => simp at hlen
  | cons l ls ih =>
    intro rs c hlen hl hr hc
    cases rs with
    | nil => simp at hlen
    | cons r rs =>
      have hlb : l < 256 := hl l (by simp)
      have hrb : r < 256 := hr r (by simp)
      rw [addBytesLoop_cons l r c ls rs hlb hrb hc]
      have hdiv : (l + r + c) / 256 ≤ 1 := by omega
      show (l + r + c) % 256 + 256 * valLE (addBytesLoop ls rs ((l + r + c) / 256)) = _
      rw [ih rs ((l + r + c) / 256) (by simpa using hlen)
        (fun x hx => hl x (List.mem_cons_of_mem l hx))
        (fun x hx => hr x (List.mem_cons_of_mem r hx)) hdiv]
      simp only [valLE, List.length_cons]
      rw [← mod_carry_split (l + r + c) (valLE ls + valLE rs) ls.length]
      congr 1
      ring

theorem addBytesLoop_length (ls : List Nat) : ∀ (rs : List Nat) (c : Nat),
    ls.length = rs.length → (addBytesLoop ls rs c).length = ls.length := by
  induction ls with
  | nil => intro rs c hlen; simp [addBytesLoop]
  | cons l ls ih =>
    intro rs c hlen
    cases rs with
    | nil => simp at hlen
    | cons r rs =>
      show ((_ % 256) :: addBytesLoop ls rs _).length = _
      simp only [List.length_cons]
      rw [ih rs _ (by simpa using hlen)]

theorem addBytesLoop_bytes_lt (ls : List Nat) : ∀ (rs : List Nat) (c : Nat),
    ∀ b ∈ addBytesLoop ls rs c, b < 256 := by
  induction ls with
  | nil => intro rs c b hb; simp [addBytesLoop] at hb
  | cons l ls ih =>
    intro rs c b hb
    cases rs with
    | nil => simp [addBytesLoop] at hb
    | cons r rs =>
      have hb2 : b ∈ ((l + c) % 256 + r) % 256 :: addBytesLoop ls rs
          (if 256 ≤ l + c ∨ 256 ≤ (l + c) % 256 + r then 1 else 0) := hb
      rcases List.mem_cons.mp hb2 with h | h
      · omega
      · exact ih rs _ b h

theorem addByteLoop_cons_ne (b c : Nat) (t : List Nat) (hc : c ≠ 0) :
    addByteLoop (b :: t) c =
      ((b + c) % 256 :: (addByteLoop t (if 256 ≤ b + c then 1 else 0)).1,
       (addByteLoop t (if 256 ≤ b + c then 1 else 0)).2) := by
  simp only [addByteLoop, if_neg hc]

theorem valLE_addByteLoop (ls : List Nat) : ∀ c : Nat,
    (∀ b ∈ ls, b < 256) → c < 256 →
    valLE (addByteLoop ls c).1 = (valLE ls + c) % 256 ^ ls.length := by
  induction ls with
  | nil => intro c h hc; simp [addByteLoop, valLE, Nat.mod_one]
  | cons b t ih =>
    intro c h hc
    have hb : b < 256 := h b (by simp)
    by_cases hc0 : c = 0
    · subst hc0
      show valLE (b :: t) = (valLE (b :: t) + 0) % 256 ^ (b :: t).length
      rw [Nat.add_zero, Nat.mod_eq_of_lt (valLE_lt _ h)]
    · rw [addByteLoop_cons_ne b c t hc0]
      have hdiv : (if 256 ≤ b + c then 1 else 0) = (b + c) / 256 := by
        split <;> omega
      rw [hdiv]
      show (b + c) % 256 + 256 * valLE (addByteLoop t ((b + c) / 256)).1 = _
      rw [ih ((b + c) / 256) (fun x hx => h x (List.mem_cons_of_mem b hx)) (by omega)]
      simp only [valLE, List.length_cons]
      rw [← mod_carry_split (b + c) (valLE t) t.length]
      congr 1
      ring

theorem addByteLoop_length (ls : List Nat) : ∀ c : Nat,
    (addByteLoop ls c).1.length = ls.length := by
  induction ls with
  | nil => intro c; rfl
  | cons b t ih =>
    intro c
    by_cases hc0 : c = 0
    · subst hc0; rfl
    · rw [addByteLoop_cons_ne b c t hc0]
      simp only [List.length_cons]
      rw [ih]

theorem addByteLoop_bytes_lt (ls : List Nat) : ∀ c : Nat,
    (∀ b ∈ ls, b < 256) → ∀ b ∈ (addByteLoop ls c).1, b < 256 := by
  induction ls with
  | nil => intro c h b hb; simp [addByteLoop] at hb
  | cons a t ih =>
    intro c h b hb
    by_cases hc0 : c = 0
    · subst hc0; exact h b hb
    · rw [addByteLoop_cons_ne a c t hc0] at hb
      rcases List.mem_cons.mp hb with hh | hh
      · omega
      · exact ih _ (fun x hx => h x (List.mem_cons_of_mem a hx)) b hh

theorem invert_bytes_length (l : List Nat) :
    (invert_bytes l).length = l.length := by
  simp [invert_bytes]

theorem invert_bytes_lt (l : List Nat) : ∀ b ∈ invert_bytes l, b < 256 := by
  intro b hb
  simp only [invert_bytes, List.mem_map] at hb
  obtain ⟨x, _, hx⟩ := hb
  omega

theorem valLE_invert (l : List Nat) (h : ∀ b ∈ l, b < 256) :
    valLE (invert_bytes l) = 256 ^ l.length - 1 - valLE l := by
  induction l with
  | nil => simp [invert_bytes, valLE]
  | cons b t ih =>
    have hb : b < 256 := h b (by simp)
    have ht := ih (fun x hx => h x (List.mem_cons_of_mem b hx))
    have hlt : valLE t < 256 ^ t.length := valLE_lt t (fun x hx => h x (List.mem_cons_of_mem b hx))
    have hpow : 256 ^ (t.length + 1) = 256 * 256 ^ t.length := by ring
    show 255 - b + 256 * valLE (invert_bytes t) = 256 ^ (t.length + 1) - 1 - (b + 256 * valLE t)
    rw [ht, hpow]
    have hp : 0 < 256 ^ t.length := pow_pos (by norm_num) t.length
    omega

theorem beVal_lt (l : List Nat) (h : ∀ b ∈ l, b < 256) :
    beVal l < 256 ^ l.length := by
  rw [beVal_eq_valLE_reverse]
  have := valLE_lt l.reverse (fun x hx => h x (List.mem_reverse.mp hx))
  simpa using this

theorem beVal_inj (l1 l2 : List Nat) (h1 : ∀ b ∈ l1, b < 256)
    (h2 : ∀ b ∈ l2, b < 256) (hlen : l1.length = l2.length)
    (hv : beVal l1 = beVal l2) : l1 = l2 := by
  have h := valLE_inj l1.reverse l2.reverse
    (fun x hx => h1 x (List.mem_reverse.mp hx))
    (fun x hx => h2 x (List.mem_reverse.mp hx))
    (by simpa using hlen)
    (by rw [← beVal_eq_valLE_reverse, ← beVal_eq_valLE_reverse]; exact hv)
  exact List.reverse_inj.mp h

theorem beVal_replicate_zero (n : Nat) : beVal (List.replicate n 0) = 0 := by
  induction n with
  | zero => rfl
  | succ n ih => rw [List.replicate_succ, beVal_cons, ih]; simp

theorem add_core (lhs rhs : List Nat) (hlen : lhs.length = rhs.length)
    (hl : ∀ x ∈ lhs, x < 256) (hr : ∀ x ∈ rhs, x < 256) :
    ∃ out, bytes_add_bytes lhs rhs = some out ∧ out.length = lhs.length ∧
      (∀ x ∈ out, x < 256) ∧
      beVal out = (beVal lhs + beVal rhs) % 256 ^ lhs.length := by
  refine ⟨(addBytesLoop lhs.reverse rhs.reverse 0).reverse, ?_, ?_, ?_, ?_⟩
  · simp [bytes_add_bytes, hlen]
  · rw [List.length_reverse, addBytesLoop_length _ _ _ (by simp [hlen]),
      List.length_reverse]
  · intro x hx
    exact addBytesLoop_bytes_lt _ _ _ x (List.mem_reverse.mp hx)
  · rw [beVal_eq_valLE_reverse, List.reverse_reverse,
      valLE_addBytesLoop _ _ _ (by simp [hlen])
        (fun x hx => hl x (List.mem_reverse.mp hx))
        (fun x hx => hr x (List.mem_reverse.mp hx)) (by omega),
      List.length_reverse, Nat.add_zero,
      beVal_eq_valLE_reverse lhs, beVal_eq_valLE_reverse rhs]

theorem negate_core (b : List Nat) (hne : b ≠ []) (hb : ∀ x ∈ b, x < 256) :
    ∃ out, negate_bytes b = some out ∧ out.length = b.length ∧
      (∀ x ∈ out, x < 256) ∧
      beVal out = (256 ^ b.length - beVal b) % 256 ^ b.length := by
  have hlen1 : 1 ≤ (invert_bytes b).length := by
    rw [invert_bytes_length]
    exact List.length_pos.mpr hne
  have hrev : (invert_bytes b).reverse = invert_bytes b.reverse := by
    simp [invert_bytes]
  refine ⟨(addByteLoop (invert_bytes b).reverse 1).1.reverse, ?_, ?_, ?_, ?_⟩
  · simp [negate_bytes, bytes_add_byte, if_pos hlen1]
  · rw [List.length_reverse, addByteLoop_length, List.length_reverse,
      invert_bytes_length]
  · intro x hx
    exact addByteLoop_bytes_lt _ 1
      (fun y hy => invert_bytes_lt b y (List.mem_reverse.mp hy))
      x (List.mem_reverse.mp hx)
  · rw [beVal_eq_valLE_reverse, List.reverse_reverse,
      valLE_addByteLoop _ 1
        (fun y hy => invert_bytes_lt b y (List.mem_reverse.mp hy)) (by norm_num),
      hrev, valLE_invert b.reverse (fun x hx => hb x (List.mem_reverse.mp hx)),
      invert_bytes_length, List.length_reverse,
      beVal_eq_valLE_reverse b]
    have hv : valLE b.reverse < 256 ^ b.length := by
      have := valLE_lt b.reverse (fun x hx => hb x (List.mem_reverse.mp hx))
      simpa using this
    have hp : 0 < 256 ^ b.length := pow_pos (by norm_num) b.length
    congr 1
    omega

theorem or_add (i m t : Nat) (h : t < 2 ^ i) : (m * 2 ^ i) ||| t = m * 2 ^ i + t := by
  rw [mul_comm]
  exact (Nat.mul_add_lt_is_or h m).symm

theorem or_add_step (S T j m : Nat) (hS : S = m * 2 ^ j) (hT : T < 2 ^ j) :
    S ||| T = S + T := by
  rw [hS]
  exact or_add j m T hT

theorem and255 (x : Nat) : x &&& 255 = x % 256 := by
  have h := Nat.and_pow_two_sub_one_eq_mod x 8
  norm_num at h
  exact h

theorem bytes4_to_u32_eq (a b c d : Nat) (hb : b < 256)
    (hc : c < 256) (hd : d < 256) :
    bytes4_to_u32 [a, b, c, d] = a * 2 ^ 24 + b * 2 ^ 16 + c * 2 ^ 8 + d := by
  have h0 : bytes4_to_u32 [a, b, c, d] =
      (((a <<< 24) ||| (b <<< 16)) ||| (c <<< 8)) ||| (d <<< 0) := by
    simp [bytes4_to_u32, List.range_succ]
  rw [h0]
  simp only [Nat.shiftLeft_eq]
  rw [or_add_step (a * 2 ^ 24) (b * 2 ^ 16) 24 a rfl (by omega)]
  rw [or_add_step (a * 2 ^ 24 + b * 2 ^ 16) (c * 2 ^ 8) 16
    (a * 2 ^ 8 + b) (by ring) (by omega)]
  rw [or_add_step (a * 2 ^ 24 + b * 2 ^ 16 + c * 2 ^ 8) (d * 2 ^ 0) 8
    (a * 2 ^ 16 + b * 2 ^ 8 + c) (by ring) (by omega)]
  ring

theorem u32_to_bytes4_eq (x : Nat) :
    u32_to_bytes4 x = [x / 2 ^ 24 % 256, x / 2 ^ 16 % 256, x / 2 ^ 8 % 256, x % 256] := by
  simp [u32_to_bytes4, List.range_succ, Nat.shiftRight_eq_div_pow, and255]

theorem u32_round_trip (x : Nat) (hx : x < 2 ^ 32) :
    bytes4_to_u32 (u32_to_bytes4 x) = x := by
  rw [u32_to_bytes4_eq, bytes4_to_u32_eq _ _ _ _ (by omega) (by omega) (by omega)]
  omega

theorem bytes4_round_trip (a b c d : Nat) (ha : a < 256) (hb : b < 256)
    (hc : c < 256) (hd : d < 256) :
    u32_to_bytes4 (bytes4_to_u32 [a, b, c, d]) = [a, b, c, d] := by
  rw [bytes4_to_u32_eq a b c d hb hc hd, u32_to_bytes4_eq]
  simp only [List.cons.injEq, and_true]
  omega

theorem bytes8_to_u64_eq (b0 b1 b2 b3 b4 b5 b6 b7 : Nat)
    (h1 : b1 < 256) (h2 : b2 < 256) (h3 : b3 < 256)
    (h4 : b4 < 256) (h5 : b5 < 256) (h6 : b6 < 256) (h7 : b7 < 256) :
    bytes8_to_u64 [b0, b1, b2, b3, b4, b5, b6, b7] =
      b0 * 2 ^ 56 + b1 * 2 ^ 48 + b2 * 2 ^ 40 + b3 * 2 ^ 32 +
      b4 * 2 ^ 24 + b5 * 2 ^ 16 + b6 * 2 ^ 8 + b7 := by
  have hstep : bytes8_to_u64 [b0, b1, b2, b3, b4, b5, b6, b7] =
      ((((((((b0 <<< 56) ||| (b1 <<< 48)) ||| (b2 <<< 40)) ||| (b3 <<< 32))
        ||| (b4 <<< 24)) ||| (b5 <<< 16)) ||| (b6 <<< 8)) ||| (b7 <<< 0)) := by
    simp [bytes8_to_u64, List.range_succ]
  rw [hstep]
  simp only [Nat.shiftLeft_eq]
  rw [or_add_step (b0 * 2 ^ 56) (b1 * 2 ^ 48) 56 b0 rfl (by omega)]
  rw [or_add_step (b0 * 2 ^ 56 + b1 * 2 ^ 48) (b2 * 2 ^ 40) 48
    (b0 * 2 ^ 8 + b1) (by ring) (by omega)]
  rw [or_add_step (b0 * 2 ^ 56 + b1 * 2 ^ 48 + b2 * 2 ^ 40) (b3 * 2 ^ 32) 40
    (b0 * 2 ^ 16 + b1 * 2 ^ 8 + b2) (by ring) (by omega)]
  rw [or_add_step (b0 * 2 ^ 56 + b1 * 2 ^ 48 + b2 * 2 ^ 40 + b3 * 2 ^ 32) (b4 * 2 ^ 24) 32
    (b0 * 2 ^ 24 + b1 * 2 ^ 16 + b2 * 2 ^ 8 + b3) (by ring) (by omega)]
  rw [or_add_step
    (b0 * 2 ^ 56 + b1 * 2 ^ 48 + b2 * 2 ^ 40 + b3 * 2 ^ 32 + b4 * 2 ^ 24)
    (b5 * 2 ^ 16) 24
    (b0 * 2 ^ 32 + b1 * 2 ^ 24 + b2 * 2 ^ 16 + b3 * 2 ^ 8 + b4) (by ring) (by omega)]
  rw [or_add_step
    (b0 * 2 ^ 56 + b1 * 2 ^ 48 + b2 * 2 ^ 40 + b3 * 2 ^ 32 + b4 * 2 ^ 24 + b5 * 2 ^ 16)
    (b6 * 2 ^ 8) 16
    (b0 * 2 ^ 40 + b1 * 2 ^ 32 + b2 * 2 ^ 24 + b3 * 2 ^ 16 + b4 * 2 ^ 8 + b5)
    (by ring) (by omega)]
  rw [or_add_step
    (b0 * 2 ^ 56 + b1 * 2 ^ 48 + b2 * 2 ^ 40 + b3 * 2 ^ 32 + b4 * 2 ^ 24 + b5 * 2 ^ 16
      + b6 * 2 ^ 8)
    (b7 * 2 ^ 0) 8
    (b0 * 2 ^ 48 + b1 * 2 ^ 40 + b2 * 2 ^ 32 + b3 * 2 ^ 24 + b4 * 2 ^ 16 + b5 * 2 ^ 8 + b6)
    (by ring) (by omega)]
  ring

theorem u64_to_bytes8_eq (x : Nat) :
    u64_to_bytes8 x = [x / 2 ^ 56 % 256, x / 2 ^ 48 % 256, x / 2 ^ 40 % 256,
      x / 2 ^ 32 % 256, x / 2 ^ 24 % 256, x / 2 ^ 16 % 256, x / 2 ^ 8 % 256, x % 256] := by
  simp [u64_to_bytes8, List.range_succ, Nat.shiftRight_eq_div_pow, and255]

theorem u64_round_trip (x : Nat) (hx : x < 2 ^ 64) :
    bytes8_to_u64 (u64_to_bytes8 x) = x := by
  rw [u64_to_bytes8_eq, bytes8_to_u64_eq _ _ _ _ _ _ _ _ (by omega) (by omega)
    (by omega) (by omega) (by omega) (by omega) (by omega)]
  omega

theorem bytes8_round_trip (b0 b1 b2 b3 b4 b5 b6 b7 : Nat)
    (h0 : b0 < 256) (h1 : b1 < 256) (h2 : b2 < 256) (h3 : b3 < 256)
    (h4 : b4 < 256) (h5 : b5 < 256) (h6 : b6 < 256) (h7 : b7 < 256) :
    u64_to_bytes8 (bytes8_to_u64 [b0, b1, b2, b3, b4, b5, b6, b7])
      = [b0, b1, b2, b3, b4, b5, b6, b7] := by
  rw [bytes8_to_u64_eq b0 b1 b2 b3 b4 b5 b6 b7 h1 h2 h3 h4 h5 h6 h7, u64_to_bytes8_eq]
  simp only [List.cons.injEq, and_true]
  omega

theorem addBytesAssertOk_true (ls : List Nat) : ∀ (rs : List Nat) (c : Nat),
    (∀ b ∈ ls, b < 256) → (∀ b ∈ rs, b < 256) → c ≤ 1 →
    addBytesAssertOk ls rs c = true := by
  induction ls with
  | nil => intro rs c _ _ _; rfl
  | cons l ls ih =>
    intro rs c hl hr hc
    cases rs with
    | nil => rfl
    | cons r rs =>
      have hlb : l < 256 := hl l (by simp)
      have hrb : r < 256 := hr r (by simp)
      show ((!(decide (256 ≤ l + c) && decide (256 ≤ (l + c) % 256 + r))) &&
        addBytesAssertOk ls rs
          (if 256 ≤ l + c ∨ 256 ≤ (l + c) % 256 + r then 1 else 0)) = true
      rw [Bool.and_eq_true]
      constructor
      · by_cases h1 : 256 ≤ l + c
        · have h2 : ¬ 256 ≤ (l + c) % 256 + r := by omega
          rw [decide_eq_false h2]
          simp
        · rw [decide_eq_false h1]
          simp
      · exact ih rs _ (fun x hx => hl x (List.mem_cons_of_mem l hx))
          (fun x hx => hr x (List.mem_cons_of_mem r hx)) (by split <;> omega)

/-- C1: for equal-length byte buffers lhs and rhs, bytes_add_bytes succeeds
and yields a byte buffer of the same length whose value as an unsigned
big-endian integer is (value lhs + value rhs) mod 2 ^ (8 * n); carry is
propagated from the least-significant (last) byte toward the first and a
carry out of the most-significant byte is discarded. -/
theorem C1_bytes_add_bytes_mod (lhs rhs : List Nat)
    (hlen : lhs.length = rhs.length)
    (hl : ∀ x ∈ lhs, x < 256) (hr : ∀ x ∈ rhs, x < 256) :
    ∃ out, bytes_add_bytes lhs rhs = some out ∧ out.length = lhs.length ∧
      (∀ x ∈ out, x < 256) ∧
      beVal out = (beVal lhs + beVal rhs) % 2 ^ (8 * lhs.length) := by
  have hpow : (2 : Nat) ^ (8 * lhs.length) = 256 ^ lhs.length := by
    rw [pow_mul]
    norm_num
  rw [hpow]
  exact add_core lhs rhs hlen hl hr

/-- Witness for C1 at the spec's vector 0xFFFFFFFF + 0x00000001. -/
theorem C1_witness :
    ∃ out, bytes_add_bytes [0xFF, 0xFF, 0xFF, 0xFF] [0x00, 0x00, 0x00, 0x01] = some out ∧
      out.length = ([0xFF, 0xFF, 0xFF, 0xFF] : List Nat).length ∧
      (∀ x ∈ out, x < 256) ∧
      beVal out = (beVal [0xFF, 0xFF, 0xFF, 0xFF] + beVal [0x00, 0x00, 0x00, 0x01]) %
        2 ^ (8 * ([0xFF, 0xFF, 0xFF, 0xFF] : List Nat).length) :=
  C1_bytes_add_bytes_mod [0xFF, 0xFF, 0xFF, 0xFF] [0x00, 0x00, 0x00, 0x01]
    rfl (by decide) (by decide)

/-- C2: for a non-empty byte buffer b, negate_bytes succeeds and yields a
byte buffer of the same length holding the two's-complement negation of the
value of b modulo 2 ^ (8 * n), i.e. (2 ^ (8 * n) - value b) mod 2 ^ (8 * n). -/
theorem C2_negate_bytes_mod (b : List Nat) (hne : b ≠ [])
    (hb : ∀ x ∈ b, x < 256) :
    ∃ out, negate_bytes b = some out ∧ out.length = b.length ∧
      (∀ x ∈ out, x < 256) ∧
      beVal out = (2 ^ (8 * b.length) - beVal b) % 2 ^ (8 * b.length) := by
  have hpow : (2 : Nat) ^ (8 * b.length) = 256 ^ b.length := by
    rw [pow_mul]
    norm_num
  rw [hpow]
  exact negate_core b hne hb

/-- Witness for C2 at the spec's vector Negate([0x00, 0x2A]). -/
theorem C2_witness :
    ∃ out, negate_bytes [0x00, 0x2A] = some out ∧
      out.length = ([0x00, 0x2A] : List Nat).length ∧
      (∀ x ∈ out, x < 256) ∧
      beVal out = (2 ^ (8 * ([0x00, 0x2A] : List Nat).length) - beVal [0x00, 0x2A]) %
        2 ^ (8 * ([0x00, 0x2A] : List Nat).length) :=
  C2_negate_bytes_mod [0x00, 0x2A] (by decide) (by decide)

/-- C3: the primitive codecs are lossless bijections in both directions:
decoding after encoding is the identity on every representable u32 and u64
value, and encoding after decoding is the identity on every byte array of
the matching width. -/
theorem C3_codec_round_trip :
    (∀ x : Nat, x < 2 ^ 32 → bytes4_to_u32 (u32_to_bytes4 x) = x) ∧
    (∀ b0 b1 b2 b3 : Nat, b0 < 256 → b1 < 256 → b2 < 256 → b3 < 256 →
      u32_to_bytes4 (bytes4_to_u32 [b0, b1, b2, b3]) = [b0, b1, b2, b3]) ∧
    (∀ x : Nat, x < 2 ^ 64 → bytes8_to_u64 (u64_to_bytes8 x) = x) ∧
    (∀ b0 b1 b2 b3 b4 b5 b6 b7 : Nat, b0 < 256 → b1 < 256 → b2 < 256 →
      b3 < 256 → b4 < 256 → b5 < 256 → b6 < 256 → b7 < 256 →
      u64_to_bytes8 (bytes8_to_u64 [b0, b1, b2, b3, b4, b5, b6, b7])
        = [b0, b1, b2, b3, b4, b5, b6, b7]) :=
  ⟨u32_round_trip, bytes4_round_trip, u64_round_trip, bytes8_round_trip⟩

/-- Witness for C3 at the spec's vectors. -/
theorem C3_witness :
    bytes4_to_u32 (u32_to_bytes4 0x12345678) = 0x12345678 ∧
    u32_to_bytes4 (bytes4_to_u32 [0x12, 0x34, 0x56, 0x78]) = [0x12, 0x34, 0x56, 0x78] ∧
    bytes8_to_u64 (u64_to_bytes8 0x123456789ABCDEF0) = 0x123456789ABCDEF0 ∧
    u64_to_bytes8 (bytes8_to_u64 [0x12, 0x34, 0x56, 0x78, 0x9A, 0xBC, 0xDE, 0xF0])
      = [0x12, 0x34, 0x56, 0x78, 0x9A, 0xBC, 0xDE, 0xF0] :=
  ⟨C3_codec_round_trip.1 0x12345678 (by norm_num),
   C3_codec_round_trip.2.1 0x12 0x34 0x56 0x78
     (by norm_num) (by norm_num) (by norm_num) (by norm_num),
   C3_codec_round_trip.2.2.1 0x123456789ABCDEF0 (by norm_num),
   C3_codec_round_trip.2.2.2 0x12 0x34 0x56 0x78 0x9A 0xBC 0xDE 0xF0
     (by norm_num) (by norm_num) (by norm_num) (by norm_num)
     (by norm_num) (by norm_num) (by norm_num) (by norm_num)⟩

/-- C4: negation is an involution: negating twice restores every non-empty
byte buffer, and negating a non-empty all-zero buffer leaves it all-zero. -/
theorem C4_negate_involution :
    (∀ b : List Nat, b ≠ [] → (∀ x ∈ b, x < 256) →
      (negate_bytes b).bind negate_bytes = some b) ∧
    (∀ n : Nat, 1 ≤ n →
      negate_bytes (List.replicate n 0) = some (List.replicate n 0)) := by
  constructor
  · intro b hne hb
    obtain ⟨o1, he1, hlen1, hb1, hv1⟩ := negate_core b hne hb
    have hbpos : 0 < b.length := List.length_pos.mpr hne
    have hne1 : o1 ≠ [] := by
      intro h
      rw [h] at hlen1
      simp at hlen1
      omega
    obtain ⟨o2, he2, hlen2, hb2, hv2⟩ := negate_core o1 hne1 hb1
    rw [he1]
    show negate_bytes o1 = some b
    rw [he2]
    have hP : 0 < 256 ^ b.length := pow_pos (by norm_num) _
    have hvlt : beVal b < 256 ^ b.length := beVal_lt b hb
    have hval : beVal o2 = beVal b := by
      rw [hv2, hlen1, hv1]
      rcases Nat.eq_zero_or_pos (beVal b) with h0 | hpos
      · rw [h0]
        simp [Nat.mod_self]
      · have hin : (256 ^ b.length - beVal b) % 256 ^ b.length
            = 256 ^ b.length - beVal b := Nat.mod_eq_of_lt (by omega)
        rw [hin, Nat.sub_sub_self (le_of_lt hvlt)]
        exact Nat.mod_eq_of_lt hvlt
    have : o2 = b := beVal_inj o2 b hb2 hb (hlen2.trans hlen1) hval
    rw [this]
  · intro n hn
    have hne0 : List.replicate n 0 ≠ ([] : List Nat) := by
      intro h
      have := congrArg List.length h
      simp at this
      omega
    obtain ⟨o, he, hlen, hbo, hv⟩ := negate_core (List.replicate n 0) hne0
      (fun x hx => by rw [List.eq_of_mem_replicate hx]; norm_num)
    rw [he]
    have : o = List.replicate n 0 := beVal_inj o _ hbo
      (fun x hx => by rw [List.eq_of_mem_replicate hx]; norm_num)
      (by rw [hlen, List.length_replicate])
      (by rw [hv, beVal_replicate_zero]; simp [Nat.mod_self])
    rw [this]

/-- Witness for C4: double negation of the spec's vector [0x00, 0x2A], and
negating a 2-byte zero buffer. -/
theorem C4_witness :
    (negate_bytes [0x00, 0x2A]).bind negate_bytes = some [0x00, 0x2A] ∧
    negate_bytes (List.replicate 2 0) = some (List.replicate 2 0) :=
  ⟨C4_negate_involution.1 [0x00, 0x2A] (by decide) (by decide),
   C4_negate_involution.2 2 (by norm_num)⟩

/-- C5: slice4_as_array4 and slice8_as_array8 return a successful view with
contents identical to the slice exactly when the slice length is 4
(respectively 8) and a failure (none) for every other length; being total
Lean functions they cannot panic. -/
theorem C5_slice_as_array (α : Type) (s : List α) :
    (slice4_as_array4 s = some s ↔ s.length = 4) ∧
    (s.length ≠ 4 → slice4_as_array4 s = none) ∧
    (slice8_as_array8 s = some s ↔ s.length = 8) ∧
    (s.length ≠ 8 → slice8_as_array8 s = none) ∧
    (∀ r, slice4_as_array4 s = some r → r = s) ∧
    (∀ r, slice8_as_array8 s = some r → r = s) := by
  refine ⟨⟨?_, ?_⟩, ?_, ⟨?_, ?_⟩, ?_, ?_, ?_⟩
  · intro h
    by_contra hne
    simp [slice4_as_array4, hne] at h
  · intro h
    simp [slice4_as_array4, h]
  · intro h
    simp [slice4_as_array4, h]
  · intro h
    by_contra hne
    simp [slice8_as_array8, hne] at h
  · intro h
    simp [slice8_as_array8, h]
  · intro h
    simp [slice8_as_array8, h]
  · intro r hr
    by_cases h : s.length = 4
    · simp [slice4_as_array4, h] at hr
      exact hr.symm
    · simp [slice4_as_array4, h] at hr
  · intro r hr
    by_cases h : s.length = 8
    · simp [slice8_as_array8, h] at hr
      exact hr.symm
    · simp [slice8_as_array8, h] at hr

/-- Witness for C5: failure on length 3, success with identical contents on
length 4, failure of the 8-ary view on the empty slice. -/
theorem C5_witness :
    slice4_as_array4 ([1, 2, 3] : List Nat) = none ∧
    slice4_as_array4 ([1, 2, 3, 4] : List Nat) = some [1, 2, 3, 4] ∧
    slice8_as_array8 ([] : List Nat) = none :=
  ⟨(C5_slice_as_array Nat [1, 2, 3]).2.1 (by decide),
   (C5_slice_as_array Nat [1, 2, 3, 4]).1.mpr (by decide),
   (C5_slice_as_array Nat []).2.2.2.1 (by decide)⟩

/-- C6: negate_bytes hits its precondition (modelled as none) exactly on the
empty buffer, and bytes_add_bytes exactly on a length mismatch; in all other
cases both succeed, so there is no other failure mode. -/
theorem C6_precondition_failures :
    (∀ b : List Nat, negate_bytes b = none ↔ b = []) ∧
    (∀ lhs rhs : List Nat, bytes_add_bytes lhs rhs = none ↔
      lhs.length ≠ rhs.length) := by
  constructor
  · intro b
    constructor
    · intro h
      by_contra hne
      have h1 : 1 ≤ (invert_bytes b).length := by
        rw [invert_bytes_length]
        exact List.length_pos.mpr hne
      simp [negate_bytes, bytes_add_byte, h1] at h
    · intro h
      subst h
      rfl
  · intro lhs rhs
    constructor
    · intro h hlen
      simp [bytes_add_bytes, hlen] at h
    · intro h
      simp [bytes_add_bytes, h]

/-- Witness for C6: the empty buffer fails negation and mismatched lengths
fail addition. -/
theorem C6_witness :
    negate_bytes ([] : List Nat) = none ∧ bytes_add_bytes [1] [1, 2] = none :=
  ⟨(C6_precondition_failures.1 []).mpr rfl,
   (C6_precondition_failures.2 [1] [1, 2]).mpr (by decide)⟩

/-- C7: the codecs implement the stated big-endian algorithm: decoding ors
together byte i shifted left by (W - (i+1)*8) bits, and encoding extracts
the 8 bits at offset (W - (i+1)*8) by shift and mask, for W = 32 and 64;
in particular u32_to_bytes4 0x12345678 = [0x12, 0x34, 0x56, 0x78]. -/
theorem C7_codec_algorithm :
    (∀ a b c d : Nat, bytes4_to_u32 [a, b, c, d] =
      (((0 ||| a <<< 24) ||| b <<< 16) ||| c <<< 8) ||| d <<< 0) ∧
    (∀ x : Nat, u32_to_bytes4 x =
      [(x >>> 24) &&& 0xFF, (x >>> 16) &&& 0xFF, (x >>> 8) &&& 0xFF,
       (x >>> 0) &&& 0xFF]) ∧
    (∀ b0 b1 b2 b3 b4 b5 b6 b7 : Nat,
      bytes8_to_u64 [b0, b1, b2, b3, b4, b5, b6, b7] =
      (((((((0 ||| b0 <<< 56) ||| b1 <<< 48) ||| b2 <<< 40) ||| b3 <<< 32)
        ||| b4 <<< 24) ||| b5 <<< 16) ||| b6 <<< 8) ||| b7 <<< 0) ∧
    (∀ x : Nat, u64_to_bytes8 x =
      [(x >>> 56) &&& 0xFF, (x >>> 48) &&& 0xFF, (x >>> 40) &&& 0xFF,
       (x >>> 32) &&& 0xFF, (x >>> 24) &&& 0xFF, (x >>> 16) &&& 0xFF,
       (x >>> 8) &&& 0xFF, (x >>> 0) &&& 0xFF]) ∧
    u32_to_bytes4 0x12345678 = [0x12, 0x34, 0x56, 0x78] ∧
    bytes4_to_u32 [0x12, 0x34, 0x56, 0x78] = 0x12345678 :=
  ⟨fun a b c d => rfl, fun x => rfl, fun b0 b1 b2 b3 b4 b5 b6 b7 => rfl,
   fun x => rfl, by decide, by decide⟩

/-- C8: bytes_add_bytes is commutative in its operands: for equal-length
byte buffers a and b the resulting bytes are the same whichever operand is
mutated. -/
theorem C8_add_commutative (a b : List Nat) (hlen : a.length = b.length)
    (ha : ∀ x ∈ a, x < 256) (hb : ∀ x ∈ b, x < 256) :
    bytes_add_bytes a b = bytes_add_bytes b a := by
  obtain ⟨o1, he1, hlen1, hb1, hv1⟩ := add_core a b hlen ha hb
  obtain ⟨o2, he2, hlen2, hb2, hv2⟩ := add_core b a hlen.symm hb ha
  rw [he1, he2]
  have : o1 = o2 := beVal_inj o1 o2 hb1 hb2 (by omega)
    (by rw [hv1, hv2, hlen, Nat.add_comm])
  rw [this]

/-- Witness for C8 at the spec's vector 0x12345678 + 0x9ABCDEF0. -/
theorem C8_witness :
    bytes_add_bytes [0x12, 0x34, 0x56, 0x78] [0x9A, 0xBC, 0xDE, 0xF0] =
      bytes_add_bytes [0x9A, 0xBC, 0xDE, 0xF0] [0x12, 0x34, 0x56, 0x78] :=
  C8_add_commutative [0x12, 0x34, 0x56, 0x78] [0x9A, 0xBC, 0xDE, 0xF0]
    rfl (by decide) (by decide)

/-- C9: adding the negation of a non-empty byte buffer a to a copy of a
yields the all-zero buffer of the same length. -/
theorem C9_add_negate_zero (a : List Nat) (hne : a ≠ [])
    (ha : ∀ x ∈ a, x < 256) :
    ∃ na, negate_bytes a = some na ∧
      bytes_add_bytes a na = some (List.replicate a.length 0) := by
  obtain ⟨na, hne1, hlen1, hb1, hv1⟩ := negate_core a hne ha
  refine ⟨na, hne1, ?_⟩
  obtain ⟨o, he, hlen, hbo, hv⟩ := add_core a na hlen1.symm ha hb1
  rw [he]
  have hvlt : beVal a < 256 ^ a.length := beVal_lt a ha
  have hP : 0 < 256 ^ a.length := pow_pos (by norm_num) _
  have hvo : beVal o = 0 := by
    rw [hv, hv1]
    rcases Nat.eq_zero_or_pos (beVal a) with h0 | hpos
    · rw [h0]
      simp [Nat.mod_self]
    · have hin : (256 ^ a.length - beVal a) % 256 ^ a.length
          = 256 ^ a.length - beVal a := Nat.mod_eq_of_lt (by omega)
      rw [hin]
      have hsum : beVal a + (256 ^ a.length - beVal a) = 256 ^ a.length := by
        omega
      rw [hsum, Nat.mod_self]
  have : o = List.replicate a.length 0 := beVal_inj o _ hbo
    (fun x hx => by rw [List.eq_of_mem_replicate hx]; norm_num)
    (by rw [hlen, List.length_replicate])
    (by rw [hvo, beVal_replicate_zero])
  rw [this]

/-- Witness for C9 at the spec's vector [0x00, 0x2A]. -/
theorem C9_witness :
    ∃ na, negate_bytes [0x00, 0x2A] = some na ∧
      bytes_add_bytes [0x00, 0x2A] na =
        some (List.replicate ([0x00, 0x2A] : List Nat).length 0) :=
  C9_add_negate_zero [0x00, 0x2A] (by decide) (by decide)

/-- C10: the debug assertion inside the bytes_add_bytes loop never fires on
equal-length byte buffers: at no position do both overflowing additions of
one step overflow. -/
theorem C10_debug_assert_ok (lhs rhs : List Nat)
    (hlen : lhs.length = rhs.length)
    (hl : ∀ x ∈ lhs, x < 256) (hr : ∀ x ∈ rhs, x < 256) :
    addBytesAssertOk lhs.reverse rhs.reverse 0 = true :=
  addBytesAssertOk_true lhs.reverse rhs.reverse 0
    (fun x hx => hl x (List.mem_reverse.mp hx))
    (fun x hx => hr x (List.mem_reverse.mp hx)) (by omega)

/-- Witness for C10 at the carry-heavy vector 0xFFFF + 0x0001. -/
theorem C10_witness :
    addBytesAssertOk ([0xFF, 0xFF] : List Nat).reverse
      ([0x00, 0x01] : List Nat).reverse 0 = true :=
  C10_debug_assert_ok [0xFF, 0xFF] [0x00, 0x01] rfl (by decide) (by decide)

end ByteUtils
